import Mathlib

/-!
Verification development for the resolution-and-caching pipeline of the
YouTube downloader service (source: `src/N.py`).  Each section embeds one
component of the source as executable Lean definitions and proves the
specification claims about it.
-/

set_option maxHeartbeats 1000000

namespace YtApi

/-! ## Admission gate (`check_api_key`, src/N.py lines 725-759)

The Mongo record for an API key is embedded as a structure holding the
fields that `check_api_key` reads and writes.  Time is passed in
explicitly: `now` models `datetime.datetime.utcnow()` and `today` models
`ist_date_str()`.  The function returns the admission result together
with the durable state of the record after the call (the `$set` reset and
the `$inc` are mutations of the stored record). -/

inductive ApiErr where
  | unauthorized
  | invalidKey
  | expired
  | quotaExceeded
  deriving DecidableEq, Repr

structure ApiKeyRec where
  used_today : Nat
  last_used_date : Option String
  daily_limit : Nat
  expiry_date : Option Nat
  deriving DecidableEq, Repr

/-- Embedding of `check_api_key` (src/N.py:725-759) for a key that is
present in the store.  Returns the admission outcome and the record as it
stands in the durable store after the call. -/
def check_api_key (now : Nat) (today : String) (rec : ApiKeyRec) :
    Except ApiErr Unit × ApiKeyRec :=
  let expired : Bool :=
    match rec.expiry_date with
    | some e => decide (e < now)
    | none => false
  if expired then
    (Except.error ApiErr.expired, rec)
  else
    let rec1 :=
      if rec.last_used_date ≠ some today then
        { rec with used_today := 0, last_used_date := some today }
      else rec
    if rec1.daily_limit ≤ rec1.used_today then
      (Except.error ApiErr.quotaExceeded, rec1)
    else
      (Except.ok Unit.unit, { rec1 with used_today := rec1.used_today + 1 })

/-- `n` successive calls of `check_api_key` on the same canonical day,
collecting the outcomes in order and threading the stored record. -/
def checkRun (now : Nat) (today : String) : Nat → ApiKeyRec → List (Except ApiErr Unit) × ApiKeyRec
  | 0, rec => ([], rec)
  | n + 1, rec =>
    let (e, rec') := check_api_key now today rec
    let (es, rec'') := checkRun now today n rec'
    (e :: es, rec'')

/-- The expiry guard of `check_api_key` does not fire. -/
def expiryOk (now : Nat) (rec : ApiKeyRec) : Prop :=
  ∀ e, rec.expiry_date = some e → ¬ e < now

lemma check_api_key_fresh (now : Nat) (today : String) (rec : ApiKeyRec)
    (hday : rec.last_used_date ≠ some today) (hexp : expiryOk now rec)
    (hpos : 0 < rec.daily_limit) :
    check_api_key now today rec =
      (Except.ok Unit.unit, { rec with used_today := 1, last_used_date := some today }) := by
  have hexpired : (match rec.expiry_date with
      | some e => decide (e < now) | none => false) = false := by
    cases h : rec.expiry_date with
    | none => rfl
    | some e => simp [hexp e h]
  simp [check_api_key, hexpired, hday, Nat.not_le.mpr hpos]

lemma check_api_key_sameday_admit (now : Nat) (today : String) (rec : ApiKeyRec)
    (hday : rec.last_used_date = some today) (hexp : expiryOk now rec)
    (hlt : rec.used_today < rec.daily_limit) :
    check_api_key now today rec =
      (Except.ok Unit.unit, { rec with used_today := rec.used_today + 1 }) := by
  have hexpired : (match rec.expiry_date with
      | some e => decide (e < now) | none => false) = false := by
    cases h : rec.expiry_date with
    | none => rfl
    | some e => simp [hexp e h]
  simp [check_api_key, hexpired, hday, Nat.not_le.mpr hlt]

lemma check_api_key_sameday_reject (now : Nat) (today : String) (rec : ApiKeyRec)
    (hday : rec.last_used_date = some today) (hexp : expiryOk now rec)
    (hge : rec.daily_limit ≤ rec.used_today) :
    check_api_key now today rec = (Except.error ApiErr.quotaExceeded, rec) := by
  have hexpired : (match rec.expiry_date with
      | some e => decide (e < now) | none => false) = false := by
    cases h : rec.expiry_date with
    | none => rfl
    | some e => simp [hexp e h]
  simp [check_api_key, hexpired, hday, hge]

lemma expiryOk_update (now : Nat) (rec : ApiKeyRec) (hexp : expiryOk now rec)
    (u : Nat) (d : Option String) :
    expiryOk now { rec with used_today := u, last_used_date := d } := by
  intro e he
  exact hexp e he

/-- Same-day steady phase: starting from a record whose watermark is
already `today` and whose counter is `k`, `j` further calls all admit and
raise the counter to `k + j`, provided `k + j` stays within the quota. -/
lemma checkRun_steady (now : Nat) (today : String) (rec : ApiKeyRec)
    (hexp : expiryOk now rec) :
    ∀ j k, k + j ≤ rec.daily_limit →
      checkRun now today j { rec with used_today := k, last_used_date := some today }
        = (List.replicate j (Except.ok Unit.unit),
           { rec with used_today := k + j, last_used_date := some today }) := by
  intro j
  induction j with
  | zero => intro k _; simp [checkRun]
  | succ n ih =>
    intro k h
    have hadm := check_api_key_sameday_admit now today
      { rec with used_today := k, last_used_date := some today }
      (by simp) (expiryOk_update now rec hexp _ _) (by simp; omega)
    simp only [checkRun, hadm]
    rw [ih (k + 1) (by omega)]
    simp [List.replicate_succ]
    omega

/-- Quota-exhausted phase: with the counter at the limit, a further call
rejects with `quotaExceeded` and leaves the record untouched. -/
lemma checkRun_exhaust (now : Nat) (today : String) (rec : ApiKeyRec)
    (hexp : expiryOk now rec) (k : Nat) (hk : rec.daily_limit ≤ k) :
    checkRun now today 1 { rec with used_today := k, last_used_date := some today }
      = ([Except.error ApiErr.quotaExceeded],
         { rec with used_today := k, last_used_date := some today }) := by
  have hrej := check_api_key_sameday_reject now today
    { rec with used_today := k, last_used_date := some today }
    (by simp) (expiryOk_update now rec hexp _ _) (by simpa using hk)
  simp [checkRun, hrej]

lemma checkRun_add (now : Nat) (today : String) :
    ∀ (a b : Nat) (s : ApiKeyRec),
      checkRun now today (a + b) s
        = ((checkRun now today a s).1 ++ (checkRun now today b (checkRun now today a s).2).1,
           (checkRun now today b (checkRun now today a s).2).2) := by
  intro a
  induction a with
  | zero => intro b s; simp [checkRun]
  | succ n ih =>
    intro b s
    have : n + 1 + b = (n + b) + 1 := by omega
    rw [this]
    simp only [checkRun]
    rw [ih b (check_api_key now today s).2]
    simp

/-- Runs from a record with no prior use today: the first call resets the
watermark and admits, after which the steady phase applies. -/
lemma checkRun_from_fresh (now : Nat) (today : String) (rec : ApiKeyRec)
    (hday : rec.last_used_date ≠ some today) (hexp : expiryOk now rec)
    (hpos : 0 < rec.daily_limit) :
    ∀ i, 1 ≤ i → i ≤ rec.daily_limit →
      checkRun now today i rec
        = (List.replicate i (Except.ok Unit.unit),
           { rec with used_today := i, last_used_date := some today }) := by
  intro i h1 hN
  obtain ⟨m, rfl⟩ : ∃ m, i = m + 1 := ⟨i - 1, by omega⟩
  have hstep := check_api_key_fresh now today rec hday hexp hpos
  simp only [checkRun, hstep]
  rw [checkRun_steady now today rec hexp m 1 (by omega)]
  simp [List.replicate_succ]
  omega

/-- C1: a token with daily quota `N` and no prior use today admits exactly
`N` times on one canonical day, the counter going `1, 2, …, N`; the
`(N+1)`-th attempt is rejected with `quotaExceeded` and leaves the stored
record exactly as it stood after the `N`-th admission; and the first call
of the new day resets the counter to `0` before the quota check, so the
first admission brings it to `1` (the initial counter is arbitrary). -/
theorem admission_quota_daily (now : Nat) (today : String) (N : Nat) (rec : ApiKeyRec)
    (hN : 1 ≤ N) (hq : rec.daily_limit = N)
    (hday : rec.last_used_date ≠ some today) (hexp : expiryOk now rec) :
    (∀ i, 1 ≤ i → i ≤ N →
       (checkRun now today i rec).1 = List.replicate i (Except.ok Unit.unit) ∧
       (checkRun now today i rec).2.used_today = i ∧
       (checkRun now today i rec).2.last_used_date = some today) ∧
    (checkRun now today (N + 1) rec).1
        = List.replicate N (Except.ok Unit.unit) ++ [Except.error ApiErr.quotaExceeded] ∧
    (checkRun now today (N + 1) rec).2 = (checkRun now today N rec).2 := by
  have hfresh := checkRun_from_fresh now today rec hday hexp (by omega)
  have hNrun := hfresh N hN (by omega)
  have hrun1 := checkRun_exhaust now today rec hexp N (by omega)
  have haddN := checkRun_add now today N 1 rec
  refine ⟨?_, ?_, ?_⟩
  · intro i h1 hi
    rw [hfresh i h1 (by omega)]
    simp
  · rw [haddN, hNrun]
    simp only [hq] at hrun1 ⊢
    rw [hrun1]
  · rw [haddN, hNrun]
    simp only [hq] at hrun1 ⊢
    rw [hrun1]

/-- Concrete instance of C1: quota 5, stale counter 7 from a previous day;
the sixth call of the new day is the first rejection. -/
theorem admission_quota_daily_witness :
    (checkRun 0 "2026-10-12" 6 ⟨7, some "2026-10-11", 5, none⟩).1
        = List.replicate 5 (Except.ok Unit.unit) ++ [Except.error ApiErr.quotaExceeded] ∧
    (checkRun 0 "2026-10-12" 1 ⟨7, some "2026-10-11", 5, none⟩).2.used_today = 1 :=
  ⟨(admission_quota_daily 0 "2026-10-12" 5 ⟨7, some "2026-10-11", 5, none⟩
      (by decide) rfl (by simp) (by intro e he; simp at he)).2.1,
   ((admission_quota_daily 0 "2026-10-12" 5 ⟨7, some "2026-10-11", 5, none⟩
      (by decide) rfl (by simp) (by intro e he; simp at he)).1 1 (by decide) (by decide)).2.1⟩

/-! ## Cache index (`get_cached_file` / `save_cache_record`, src/N.py:689-723)

`IN_MEMORY_CACHE` is the process-local map, `mongodb.cache` the durable
store; both are modelled as association lists keyed by `(ytid, type)`
with newest entry first (an upsert removes the previous entry for the
key).  `get_cached_file` additionally reports how many durable-store
round trips the call performed. -/

structure CacheDoc where
  ytid : String
  type : String
  file_id : String
  chat_id : Int
  msg_id : Int
  file_name : String
  meta : List (String × String)
  cached_at : Nat
  deriving DecidableEq, Repr

structure CacheState where
  localMap : List ((String × String) × CacheDoc)
  store : List ((String × String) × CacheDoc)
  deriving DecidableEq, Repr

def alookup (k : String × String) : List ((String × String) × CacheDoc) → Option CacheDoc
  | [] => none
  | (k', v) :: rest => if k' = k then some v else alookup k rest

/-- Embedding of `get_cached_file` (src/N.py:689-700).  Returns the hit
(if any), the state after the call, and the number of durable-store
queries made. -/
def get_cached_file (ytid media_type : String) (s : CacheState) :
    Option CacheDoc × CacheState × Nat :=
  let key := (ytid, media_type)
  match alookup key s.localMap with
  | some doc => (some doc, s, 0)
  | none =>
    match alookup key s.store with
    | some doc => (some doc, { s with localMap := (key, doc) :: s.localMap }, 1)
    | none => (none, s, 1)

/-- Embedding of `save_cache_record` (src/N.py:702-723): builds the
document, upserts it in the durable store and refreshes the local map. -/
def save_cache_record (ytid media_type file_id : String) (chat_id msg_id : Int)
    (file_name : String) (meta : List (String × String)) (cached_at : Nat)
    (s : CacheState) : CacheDoc × CacheState :=
  let key := (ytid, media_type)
  let doc : CacheDoc := ⟨ytid, media_type, file_id, chat_id, msg_id, file_name, meta, cached_at⟩
  (doc, { localMap := (key, doc) :: (s.localMap.filter (fun p => p.1 ≠ key)),
          store := (key, doc) :: (s.store.filter (fun p => p.1 ≠ key)) })

/-- C5: the cache index is read-through with a process-local fast path: a
local-map hit is returned with zero durable-store round trips and no state
change; a local miss that hits the durable store populates the local map
(one round trip); and immediately after `save_cache_record` a lookup of
the same `(identifier, kind)` returns that exact document with zero
durable-store round trips. -/
theorem cache_index_read_through :
    (∀ ytid mt s doc, alookup (ytid, mt) s.localMap = some doc →
        get_cached_file ytid mt s = (some doc, s, 0)) ∧
    (∀ ytid mt s doc, alookup (ytid, mt) s.localMap = none →
        alookup (ytid, mt) s.store = some doc →
        get_cached_file ytid mt s
          = (some doc, { s with localMap := ((ytid, mt), doc) :: s.localMap }, 1)) ∧
    (∀ ytid mt fid cid mid fn meta t s,
        get_cached_file ytid mt (save_cache_record ytid mt fid cid mid fn meta t s).2
          = (some (save_cache_record ytid mt fid cid mid fn meta t s).1,
             (save_cache_record ytid mt fid cid mid fn meta t s).2, 0)) := by
  refine ⟨?_, ?_, ?_⟩
  · intro ytid mt s doc h
    simp [get_cached_file, h]
  · intro ytid mt s doc h1 h2
    simp [get_cached_file, h1, h2]
  · intro ytid mt fid cid mid fn meta t s
    simp [get_cached_file, save_cache_record, alookup]

/-- Concrete instance of C5: a fresh publish of a record is immediately
served from the local map, and a pre-populated local map entry is served
with zero durable-store round trips. -/
theorem cache_index_read_through_witness :
    get_cached_file "vid00000000" "video"
        (save_cache_record "vid00000000" "video" "f1" 1 2 "n.mp4" [] 0 ⟨[], []⟩).2
      = (some (save_cache_record "vid00000000" "video" "f1" 1 2 "n.mp4" [] 0 ⟨[], []⟩).1,
         (save_cache_record "vid00000000" "video" "f1" 1 2 "n.mp4" [] 0 ⟨[], []⟩).2, 0) ∧
    get_cached_file "a" "audio"
        ⟨[(("a", "audio"), ⟨"a", "audio", "f", 1, 2, "n", [], 0⟩)], []⟩
      = (some ⟨"a", "audio", "f", 1, 2, "n", [], 0⟩,
         ⟨[(("a", "audio"), ⟨"a", "audio", "f", 1, 2, "n", [], 0⟩)], []⟩, 0) :=
  ⟨cache_index_read_through.2.2 "vid00000000" "video" "f1" 1 2 "n.mp4" [] 0 ⟨[], []⟩,
   cache_index_read_through.1 "a" "audio"
     ⟨[(("a", "audio"), ⟨"a", "audio", "f", 1, 2, "n", [], 0⟩)], []⟩
     ⟨"a", "audio", "f", 1, 2, "n", [], 0⟩ (by simp [alookup])⟩

/-! ## Single archival run (`background_download_and_upload`, src/N.py:825-869)

One run of the background task, abstracted over the success of its three
fallible steps (download, Telegram upload, cache-record write) and over
whether a failed download left a partial temporary file.  The returned
Boolean reports whether an exception escaped the task (the `try/except`
swallows all step failures and the `finally` block always runs). -/

structure ArchiveState where
  inFlight : Bool
  tempFile : Bool
  recordWrites : Nat
  deriving DecidableEq, Repr

/-- Embedding of one run of `background_download_and_upload`
(src/N.py:825-869) for a fixed key: check-and-mark, the `try` body with
its three fallible steps, then the `finally` cleanup (delete the temp
file if present, discard the in-flight mark). -/
def background_download_and_upload (dlOk tempOnFail upOk saveOk : Bool)
    (s : ArchiveState) : ArchiveState × Bool :=
  if s.inFlight then (s, false)
  else
    let s1 := { s with inFlight := true }
    let s2 :=
      if dlOk then
        let sdl := { s1 with tempFile := true }
        if upOk then
          if saveOk then { sdl with recordWrites := sdl.recordWrites + 1 }
          else sdl
        else sdl
      else { s1 with tempFile := tempOnFail }
    ({ s2 with tempFile := false, inFlight := false }, false)

/-- C3: an archival run always ends with the cleanup phase having run —
the temporary file is gone and the in-flight mark cleared — no exception
is surfaced to the dispatcher, and when any of the download, upload or
record-write steps fails, no cache record is written. -/
theorem archiver_cleanup (dlOk tempOnFail upOk saveOk : Bool) (s : ArchiveState)
    (hrun : s.inFlight = false) :
    (background_download_and_upload dlOk tempOnFail upOk saveOk s).1.inFlight = false ∧
    (background_download_and_upload dlOk tempOnFail upOk saveOk s).1.tempFile = false ∧
    (background_download_and_upload dlOk tempOnFail upOk saveOk s).2 = false ∧
    (¬(dlOk = true ∧ upOk = true ∧ saveOk = true) →
      (background_download_and_upload dlOk tempOnFail upOk saveOk s).1.recordWrites
        = s.recordWrites) := by
  cases dlOk <;> cases tempOnFail <;> cases upOk <;> cases saveOk <;>
    simp [background_download_and_upload, hrun]

/-- Concrete instance of C3: a run whose upload fails still cleans up and
publishes nothing. -/
theorem archiver_cleanup_witness :
    (background_download_and_upload true true false true ⟨false, false, 0⟩).1.inFlight = false ∧
    (background_download_and_upload true true false true ⟨false, false, 0⟩).1.tempFile = false ∧
    (background_download_and_upload true true false true ⟨false, false, 0⟩).1.recordWrites = 0 := by
  have h := archiver_cleanup true true false true ⟨false, false, 0⟩ rfl
  exact ⟨h.1, h.2.1, h.2.2.2 (by simp)⟩

/-! ## Single-flight interleaving model (C2)

Two concurrent dispatches of `background_download_and_upload` for the
same `(identifier, kind)` key are modelled as two tasks A and B whose
atomic steps are interleaved by an arbitrary schedule.  The check of
`PROCESSING_SET` and the `add` that follows it run with no `await`
between them, so they form one atomic step.  Program counters: `0` =
about to run check-and-mark, `1` = marked, about to download, `2` = about
to upload, `3` = about to write the cache record, `4` = about to run the
cleanup phase, `5` = finished a full run, `6` = returned as a no-op
because the key was already in flight. -/

structure BgSys where
  inFlight : Bool
  uploads : Nat
  records : Nat
  pcA : Nat
  pcB : Nat
  deriving DecidableEq, Repr

/-- One atomic step of task A (`who = true`) or B (`who = false`). -/
def bgStep (who : Bool) (s : BgSys) : BgSys :=
  let pc := if who then s.pcA else s.pcB
  let (pc', s') : Nat × BgSys :=
    if pc = 0 then
      if s.inFlight then (6, s) else (1, { s with inFlight := true })
    else if pc = 1 then (2, s)
    else if pc = 2 then (3, { s with uploads := s.uploads + 1 })
    else if pc = 3 then (4, { s with records := s.records + 1 })
    else if pc = 4 then (5, { s with inFlight := false })
    else (pc, s)
  if who then { s' with pcA := pc' } else { s' with pcB := pc' }

def bgExec (sched : List Bool) (s : BgSys) : BgSys :=
  sched.foldl (fun t w => bgStep w t) s

def bgInit : BgSys := ⟨false, 0, 0, 0, 0⟩

def bgMid (pc : Nat) : Bool := decide (1 ≤ pc ∧ pc ≤ 4)

def upCnt (pc : Nat) : Nat := if 3 ≤ pc ∧ pc ≤ 5 then 1 else 0

def rcCnt (pc : Nat) : Nat := if 4 ≤ pc ∧ pc ≤ 5 then 1 else 0

/-- Inductive invariant of the two-task system: the in-flight mark is set
exactly while some task is mid-run, at most one task is mid-run at a
time, the upload and record counters are determined by the program
counters, and at most one task can have no-opped. -/
def BgInv (s : BgSys) : Prop :=
  s.pcA ≤ 6 ∧ s.pcB ≤ 6 ∧
  s.inFlight = (bgMid s.pcA || bgMid s.pcB) ∧
  ¬(bgMid s.pcA = true ∧ bgMid s.pcB = true) ∧
  s.uploads = upCnt s.pcA + upCnt s.pcB ∧
  s.records = rcCnt s.pcA + rcCnt s.pcB ∧
  ¬(s.pcA = 6 ∧ s.pcB = 6)

lemma bgStep_inv (who : Bool) (s : BgSys) (h : BgInv s) : BgInv (bgStep who s) := by
  obtain ⟨fl, up, rc, pa, pb⟩ := s
  obtain ⟨ha, hb, hfl, hmid, hup, hrc, h6⟩ := h
  simp only at ha hb hfl hmid hup hrc h6
  cases who <;> interval_cases pa <;> interval_cases pb <;>
    simp_all [bgStep, BgInv, bgMid, upCnt, rcCnt]

lemma bgExec_inv (sched : List Bool) (s : BgSys) (h : BgInv s) : BgInv (bgExec sched s) := by
  induction sched generalizing s with
  | nil => exact h
  | cons w ws ih => exact ih (bgStep w s) (bgStep_inv w s h)

/-- C2: single-flight per key.  First conjunct: a task that runs its
check-and-mark step while the key is already in flight returns
immediately as a no-op — nothing but its own program counter changes, so
it performs no download, upload or record write.  Second conjunct: under
any schedule in which both tasks have settled and at least one of them
no-opped (i.e. the calls overlapped), there is exactly one upload,
exactly one cache-record write, and the in-flight mark is clear. -/
theorem single_flight_dedup :
    (∀ s : BgSys, s.inFlight = true → s.pcA = 0 →
        bgStep true s = { s with pcA := 6 }) ∧
    (∀ sched : List Bool,
        ((bgExec sched bgInit).pcA = 5 ∨ (bgExec sched bgInit).pcA = 6) →
        ((bgExec sched bgInit).pcB = 5 ∨ (bgExec sched bgInit).pcB = 6) →
        ((bgExec sched bgInit).pcA = 6 ∨ (bgExec sched bgInit).pcB = 6) →
        (bgExec sched bgInit).uploads = 1 ∧
        (bgExec sched bgInit).records = 1 ∧
        (bgExec sched bgInit).inFlight = false) := by
  constructor
  · intro s hfl h0
    simp [bgStep, h0, hfl]
  · intro sched hA hB hover
    have hinv : BgInv (bgExec sched bgInit) :=
      bgExec_inv sched bgInit (by simp [BgInv, bgInit, bgMid, upCnt, rcCnt])
    obtain ⟨_, _, hfl, _, hup, hrc, h6⟩ := hinv
    rcases hA with hA | hA <;> rcases hB with hB | hB <;>
      simp_all [bgMid, upCnt, rcCnt]

/-- Concrete instance of C2: task A marks the key, task B's
check-and-mark finds it in flight and no-ops, A completes; one upload,
one record write, marker clear. -/
theorem single_flight_dedup_witness :
    (bgExec [true, false, true, true, true, true] bgInit).uploads = 1 ∧
    (bgExec [true, false, true, true, true, true] bgInit).records = 1 ∧
    (bgExec [true, false, true, true, true, true] bgInit).inFlight = false :=
  single_flight_dedup.2 [true, false, true, true, true, true]
    (by decide) (by decide) (by decide)

/-! ## Quality selector (`choose_best_quality`, src/N.py:673-687)

A format entry of the decrypted metadata carries a `type` tag and the
numeric descriptors the code reads with `.get` (absent keys are modelled
with `Option`).  Python's `list.sort(key=…, reverse=True)` is a stable
descending sort; it is modelled by a stable insertion sort, which agrees
with any stable sort on the observable the code uses (the head). -/

structure FmtEntry where
  type : String
  height : Option Nat
  bitrate : Option Nat
  deriving DecidableEq, Repr

structure SaveTubeDoc where
  title : Option String
  durationLabel : Option String
  key : Option String
  thumbnail : Option String
  formats : List FmtEntry
  deriving DecidableEq, Repr

def DEFAULT_VIDEO_QUALITY : String := "720"

def DEFAULT_AUDIO_QUALITY : String := "320"

def heightKey (f : FmtEntry) : Nat := f.height.getD 0

def bitrateKey (f : FmtEntry) : Nat := f.bitrate.getD 0

/-- Stable insertion into a descending-sorted list: an element is placed
before the first strictly smaller key, after equal keys already present
earlier... before equal keys that came later in the original list. -/
def insDesc (key : FmtEntry → Nat) (x : FmtEntry) : List FmtEntry → List FmtEntry
  | [] => [x]
  | y :: ys => if key y ≤ key x then x :: y :: ys else y :: insDesc key x ys

/-- Stable descending sort, modelling `list.sort(key=…, reverse=True)`. -/
def sortDesc (key : FmtEntry → Nat) : List FmtEntry → List FmtEntry
  | [] => []
  | x :: xs => insDesc key x (sortDesc key xs)

/-- Embedding of `choose_best_quality` (src/N.py:673-687). -/
def choose_best_quality (decrypted : SaveTubeDoc) (media_type : String) : String :=
  if media_type = "video" then
    let video_formats := decrypted.formats.filter (fun f => f.type = "video")
    match sortDesc heightKey video_formats with
    | [] => DEFAULT_VIDEO_QUALITY
    | f :: _ =>
      match f.height with
      | some n => toString n
      | none => DEFAULT_VIDEO_QUALITY
  else
    let audio_formats := decrypted.formats.filter (fun f => f.type = "audio")
    match sortDesc bitrateKey audio_formats with
    | [] => DEFAULT_AUDIO_QUALITY
    | f :: _ =>
      match f.bitrate with
      | some n => toString n
      | none => DEFAULT_AUDIO_QUALITY

/-- First element of the list attaining the maximum key (ties broken by
first occurrence). -/
def firstMaxBy (key : FmtEntry → Nat) : List FmtEntry → Option FmtEntry
  | [] => none
  | x :: xs =>
    match firstMaxBy key xs with
    | none => some x
    | some y => if key y ≤ key x then some x else some y

/-- `f` is the first-encountered maximum of `l` under `key`. -/
def IsFirstMax (key : FmtEntry → Nat) (l : List FmtEntry) (f : FmtEntry) : Prop :=
  (∀ g ∈ l, key g ≤ key f) ∧
  ∃ l1 l2, l = l1 ++ f :: l2 ∧ ∀ g ∈ l1, key g < key f

lemma insDesc_ne_nil (key : FmtEntry → Nat) (x : FmtEntry) (l : List FmtEntry) :
    insDesc key x l ≠ [] := by
  cases l with
  | nil => simp [insDesc]
  | cons y ys =>
    by_cases h : key y ≤ key x <;> simp [insDesc, h]

lemma sortDesc_eq_nil_iff (key : FmtEntry → Nat) (l : List FmtEntry) :
    sortDesc key l = [] ↔ l = [] := by
  cases l with
  | nil => simp [sortDesc]
  | cons x xs => simp [sortDesc, insDesc_ne_nil]

lemma head?_insDesc (key : FmtEntry → Nat) (x : FmtEntry) (l : List FmtEntry) :
    (insDesc key x l).head? =
      match l.head? with
      | none => some x
      | some y => if key y ≤ key x then some x else some y := by
  cases l with
  | nil => simp [insDesc]
  | cons y ys => by_cases h : key y ≤ key x <;> simp [insDesc, h]

/-- The head of the stable descending sort is the first-encountered
maximum. -/
lemma head?_sortDesc (key : FmtEntry → Nat) (l : List FmtEntry) :
    (sortDesc key l).head? = firstMaxBy key l := by
  induction l with
  | nil => simp [sortDesc, firstMaxBy]
  | cons x xs ih =>
    simp only [sortDesc, firstMaxBy, head?_insDesc, ih]

lemma firstMaxBy_eq_none (key : FmtEntry → Nat) (l : List FmtEntry) :
    firstMaxBy key l = none ↔ l = [] := by
  cases l with
  | nil => simp [firstMaxBy]
  | cons x xs =>
    simp only [firstMaxBy]
    cases firstMaxBy key xs with
    | none => simp
    | some y => by_cases h : key y ≤ key x <;> simp [h]

lemma firstMaxBy_isFirstMax (key : FmtEntry → Nat) :
    ∀ l f, firstMaxBy key l = some f → IsFirstMax key l f := by
  intro l
  induction l with
  | nil => intro f h; simp [firstMaxBy] at h
  | cons x xs ih =>
    intro f h
    simp only [firstMaxBy] at h
    cases hxs : firstMaxBy key xs with
    | none =>
      simp only [hxs] at h
      obtain rfl : x = f := by simpa using h
      have hnil : xs = [] := (firstMaxBy_eq_none key xs).mp hxs
      subst hnil
      exact ⟨by simp, [], [], by simp, by simp⟩
    | some y =>
      simp only [hxs] at h
      have hy := ih y hxs
      by_cases hcmp : key y ≤ key x
      · rw [if_pos hcmp] at h
        obtain rfl : x = f := by simpa using h
        refine ⟨?_, [], xs, by simp, by simp⟩
        intro g hg
        rcases List.mem_cons.mp hg with rfl | hg
        · exact le_refl _
        · exact le_trans (hy.1 g hg) hcmp
      · rw [if_neg hcmp] at h
        obtain rfl : y = f := by simpa using h
        obtain ⟨hmax, l1, l2, hdec, hlt⟩ := hy
        refine ⟨?_, x :: l1, l2, by simp [hdec], ?_⟩
        · intro g hg
          rcases List.mem_cons.mp hg with rfl | hg
          · omega
          · exact hmax g hg
        · intro g hg
          rcases List.mem_cons.mp hg with rfl | hg
          · omega
          · exact hlt g hg

/-- C7: the quality selector filters to the requested kind; on a
non-empty filtered list it returns the string form of the numeric
descriptor (height for video, bitrate for audio) of the first-encountered
entry with the maximum descriptor; on an empty filtered list it returns
the configured default for the kind. -/
theorem choose_best_quality_spec (d : SaveTubeDoc) :
    (d.formats.filter (fun f => f.type = "video") = [] →
        choose_best_quality d "video" = DEFAULT_VIDEO_QUALITY) ∧
    (d.formats.filter (fun f => f.type = "audio") = [] →
        choose_best_quality d "audio" = DEFAULT_AUDIO_QUALITY) ∧
    ((∀ g ∈ d.formats.filter (fun f => f.type = "video"), g.height.isSome) →
      d.formats.filter (fun f => f.type = "video") ≠ [] →
      ∃ f n, f.height = some n ∧
        IsFirstMax heightKey (d.formats.filter (fun f => f.type = "video")) f ∧
        choose_best_quality d "video" = toString n) ∧
    ((∀ g ∈ d.formats.filter (fun f => f.type = "audio"), g.bitrate.isSome) →
      d.formats.filter (fun f => f.type = "audio") ≠ [] →
      ∃ f n, f.bitrate = some n ∧
        IsFirstMax bitrateKey (d.formats.filter (fun f => f.type = "audio")) f ∧
        choose_best_quality d "audio" = toString n) := by
  refine ⟨?_, ?_, ?_, ?_⟩
  · intro h
    simp [choose_best_quality, h, sortDesc]
  · intro h
    simp [choose_best_quality, h, sortDesc]
  · intro hsome hne
    set l := d.formats.filter (fun f => f.type = "video") with hl
    have hsne : sortDesc heightKey l ≠ [] := by
      simpa [sortDesc_eq_nil_iff] using hne
    obtain ⟨f, rest, hcons⟩ := List.exists_cons_of_ne_nil hsne
    have hhead : firstMaxBy heightKey l = some f := by
      rw [← head?_sortDesc, hcons]; rfl
    have hfm := firstMaxBy_isFirstMax heightKey l f hhead
    have hmem : f ∈ l := by
      obtain ⟨_, l1, l2, hdec, _⟩ := hfm
      rw [hdec]; simp
    obtain ⟨n, hn⟩ := Option.isSome_iff_exists.mp (hsome f hmem)
    refine ⟨f, n, hn, hfm, ?_⟩
    simp only [choose_best_quality, ← hl, hcons, hn]
    simp
  · intro hsome hne
    set l := d.formats.filter (fun f => f.type = "audio") with hl
    have hsne : sortDesc bitrateKey l ≠ [] := by
      simpa [sortDesc_eq_nil_iff] using hne
    obtain ⟨f, rest, hcons⟩ := List.exists_cons_of_ne_nil hsne
    have hhead : firstMaxBy bitrateKey l = some f := by
      rw [← head?_sortDesc, hcons]; rfl
    have hfm := firstMaxBy_isFirstMax bitrateKey l f hhead
    have hmem : f ∈ l := by
      obtain ⟨_, l1, l2, hdec, _⟩ := hfm
      rw [hdec]; simp
    obtain ⟨n, hn⟩ := Option.isSome_iff_exists.mp (hsome f hmem)
    refine ⟨f, n, hn, hfm, ?_⟩
    simp only [choose_best_quality]
    rw [if_neg (by decide), ← hl, hcons]
    simp [hn]

/-- Concrete instance of C7: renditions 480/720/1080 select 1080, and an
empty video list selects the configured default. -/
theorem choose_best_quality_spec_witness :
    choose_best_quality ⟨none, none, none, none, []⟩ "video" = DEFAULT_VIDEO_QUALITY ∧
    choose_best_quality
        ⟨none, none, none, none,
          [⟨"video", some 480, none⟩, ⟨"video", some 720, none⟩,
           ⟨"video", some 1080, none⟩]⟩ "video" = "1080" :=
  ⟨(choose_best_quality_spec ⟨none, none, none, none, []⟩).1 rfl, by decide⟩

/-! ## Preferred-quality override (`ytmp4`/`ytmp3`, src/N.py:1062 and 1143)

`selected_quality = quality or choose_best_quality(decrypted, kind)`:
Python's `or` keeps the caller-supplied quality whenever it is truthy
(a non-empty string) and never consults the rendition list. -/

/-- Embedding of src/N.py:1062. -/
def ytmp4_selected_quality (quality : Option String) (decrypted : SaveTubeDoc) : String :=
  match quality with
  | some q => if q = "" then choose_best_quality decrypted "video" else q
  | none => choose_best_quality decrypted "video"

/-- Embedding of src/N.py:1143. -/
def ytmp3_selected_quality (quality : Option String) (decrypted : SaveTubeDoc) : String :=
  match quality with
  | some q => if q = "" then choose_best_quality decrypted "audio" else q
  | none => choose_best_quality decrypted "audio"

/-- C8 counterexample: with metadata offering only a 720p video
rendition, a supplied preferred quality of "144" — present in no
rendition — is used verbatim instead of the selector's choice, refuting
the claim that an absent preferred quality falls back to the selector. -/
theorem preferred_quality_counterexample :
    ytmp4_selected_quality (some "144")
        ⟨none, none, none, none, [⟨"video", some 720, none⟩]⟩ = "144" ∧
    choose_best_quality ⟨none, none, none, none, [⟨"video", some 720, none⟩]⟩ "video" = "720" ∧
    (∀ f ∈ [FmtEntry.mk "video" (some 720) none], f.height ≠ some 144) ∧
    "144" ≠ "720" := by
  refine ⟨by decide, by decide, by decide, by decide⟩

/-- C8 amended: on a cache miss the handlers use the caller-supplied
preferred quality whenever it is supplied and non-empty, regardless of
whether it occurs among the metadata's renditions; the selector's choice
is used exactly when the preferred quality is absent or empty. -/
theorem preferred_quality_amended :
    (∀ (q : String) (d : SaveTubeDoc), q ≠ "" →
        ytmp4_selected_quality (some q) d = q ∧ ytmp3_selected_quality (some q) d = q) ∧
    (∀ d : SaveTubeDoc,
        ytmp4_selected_quality none d = choose_best_quality d "video" ∧
        ytmp4_selected_quality (some "") d = choose_best_quality d "video" ∧
        ytmp3_selected_quality none d = choose_best_quality d "audio" ∧
        ytmp3_selected_quality (some "") d = choose_best_quality d "audio") := by
  constructor
  · intro q d hq
    simp [ytmp4_selected_quality, ytmp3_selected_quality, hq]
  · intro d
    simp [ytmp4_selected_quality, ytmp3_selected_quality]

/-- Concrete instance of the amended C8. -/
theorem preferred_quality_amended_witness :
    ytmp4_selected_quality (some "480")
        ⟨none, none, none, none, [⟨"video", some 720, none⟩]⟩ = "480" :=
  (preferred_quality_amended.1 "480"
      ⟨none, none, none, none, [⟨"video", some 720, none⟩]⟩ (by decide)).1

/-! ## Identifier normalizer (src/N.py:91-93 and 609-625)

`YT_RE` is
`(?:https?://)?(?:www\.)?(?:youtube\.com/(?:watch\?v=|embed/|shorts/)|youtu\.be/)?([0-9A-Za-z_-]{11})`.
Every part before the capturing group is optional, and `.search` scans
left to right.  A match attempt at one position is modelled by trying the
finitely many choices of the optional literal parts in the regex engine's
greedy backtracking order (`https://` before `http://` before the empty
choice, and so on), then requiring exactly 11 identifier characters.
Strings are modelled as `List Char`; `str.strip()` as dropping Python's
whitespace characters from both ends. -/

/-- The character class `[0-9A-Za-z_-]`. -/
def isTok (c : Char) : Bool :=
  ('0' ≤ c && c ≤ '9') || ('A' ≤ c && c ≤ 'Z') || ('a' ≤ c && c ≤ 'z') ||
    c = '_' || c = '-'

/-- The ASCII whitespace characters removed by `str.strip()`. -/
def isSpace (c : Char) : Bool :=
  c = ' ' || c = '\t' || c = '\n' || c = '\r' || c = '\x0b' || c = '\x0c'

/-- `str.strip()`. -/
def pyStrip (l : List Char) : List Char :=
  ((l.dropWhile isSpace).reverse.dropWhile isSpace).reverse

def litHttps : List Char := ['h', 't', 't', 'p', 's', ':', '/', '/']

def litHttp : List Char := ['h', 't', 't', 'p', ':', '/', '/']

def litWww : List Char := ['w', 'w', 'w', '.']

def litWatch : List Char :=
  ['y', 'o', 'u', 't', 'u', 'b', 'e', '.', 'c', 'o', 'm', '/', 'w', 'a', 't', 'c', 'h', '?', 'v', '=']

def litEmbed : List Char :=
  ['y', 'o', 'u', 't', 'u', 'b', 'e', '.', 'c', 'o', 'm', '/', 'e', 'm', 'b', 'e', 'd', '/']

def litShorts : List Char :=
  ['y', 'o', 'u', 't', 'u', 'b', 'e', '.', 'c', 'o', 'm', '/', 's', 'h', 'o', 'r', 't', 's', '/']

def litYoutuBe : List Char := ['y', 'o', 'u', 't', 'u', '.', 'b', 'e', '/']

/-- Consume a literal from the front of the input, returning the rest. -/
def tryLit : List Char → List Char → Option (List Char)
  | [], s => some s
  | _ :: _, [] => none
  | c :: cs, a :: as => if a = c then tryLit cs as else none

/-- Consume exactly `n` identifier-class characters. -/
def takeTok : Nat → List Char → Option (List Char × List Char)
  | 0, s => some ([], s)
  | _ + 1, [] => none
  | n + 1, c :: cs =>
    if isTok c then (takeTok n cs).map (fun p => (c :: p.1, p.2)) else none

/-- One backtracking alternative of `YT_RE` at a fixed position: consume
the chosen optional literals, then capture 11 identifier characters. -/
def matchCombo (s pLit wLit hLit : List Char) : Option (List Char) :=
  (tryLit pLit s).bind fun s1 =>
    (tryLit wLit s1).bind fun s2 =>
      (tryLit hLit s2).bind fun s3 =>
        (takeTok 11 s3).map Prod.fst

/-- All alternatives of `YT_RE`'s optional parts, in the greedy
backtracking order of the regex engine: the protocol group tries
`https://`, then `http://`, then empty; the `www.` group tries the
literal then empty; the host group tries `youtube.com/watch?v=`,
`youtube.com/embed/`, `youtube.com/shorts/`, `youtu.be/`, then empty. -/
def reCombos : List (List Char × List Char × List Char) :=
  [(litHttps, litWww, litWatch), (litHttps, litWww, litEmbed),
   (litHttps, litWww, litShorts), (litHttps, litWww, litYoutuBe), (litHttps, litWww, []),
   (litHttps, [], litWatch), (litHttps, [], litEmbed),
   (litHttps, [], litShorts), (litHttps, [], litYoutuBe), (litHttps, [], []),
   (litHttp, litWww, litWatch), (litHttp, litWww, litEmbed),
   (litHttp, litWww, litShorts), (litHttp, litWww, litYoutuBe), (litHttp, litWww, []),
   (litHttp, [], litWatch), (litHttp, [], litEmbed),
   (litHttp, [], litShorts), (litHttp, [], litYoutuBe), (litHttp, [], []),
   ([], litWww, litWatch), ([], litWww, litEmbed),
   ([], litWww, litShorts), ([], litWww, litYoutuBe), ([], litWww, []),
   ([], [], litWatch), ([], [], litEmbed),
   ([], [], litShorts), ([], [], litYoutuBe), ([], [], [])]

/-- First alternative that matches, in backtracking order. -/
def tryCombos (s : List Char) : List (List Char × List Char × List Char) → Option (List Char)
  | [] => none
  | (p, w, h) :: rest =>
    match matchCombo s p w h with
    | some v => some v
    | none => tryCombos s rest

/-- One match attempt of `YT_RE` at a fixed position. -/
def ytMatchAt (s : List Char) : Option (List Char) :=
  tryCombos s reCombos

/-- `YT_RE.search`: the capture of the leftmost successful attempt (an
attempt on the empty remainder always fails, so the base case is `none`). -/
def ytSearch : List Char → Option (List Char)
  | [] => none
  | c :: cs =>
    match ytMatchAt (c :: cs) with
    | some v => some v
    | none => ytSearch cs

/-- `re.fullmatch(r"[0-9A-Za-z_-]{11}", s)` as a Boolean. -/
def fullmatchTok (l : List Char) : Bool :=
  l.length == 11 && l.all isTok

/-- The canonical reference URL `https://www.youtube.com/watch?v=` ++ id
built by `normalize_youtube_input`. -/
def canonicalUrl (vidid : List Char) : List Char :=
  litHttps ++ (litWww ++ (litWatch ++ vidid))

/-- Embedding of `extract_vidid` (src/N.py:619-625). -/
def extract_vidid (inp : List Char) : Option (List Char) :=
  match ytSearch (pyStrip inp) with
  | some v => some v
  | none => if fullmatchTok (pyStrip inp) then some (pyStrip inp) else none

/-- Embedding of `normalize_youtube_input` (src/N.py:609-617). -/
def normalize_youtube_input (inp : List Char) : List Char :=
  let inp1 := pyStrip inp
  match ytSearch inp1 with
  | some vidid => canonicalUrl vidid
  | none => if fullmatchTok inp1 then canonicalUrl inp1 else inp1

/-! The recognized URL shapes of the specification: an optional protocol,
an optional `www.`, and one of the four host/path forms, followed by the
identifier. -/

inductive ProtoShape where
  | bare
  | http
  | https
  deriving DecidableEq, Repr

inductive HostShape where
  | watch
  | embed
  | shorts
  | shortlink
  deriving DecidableEq, Repr

def protoStr : ProtoShape → List Char
  | .bare => []
  | .http => litHttp
  | .https => litHttps

def hostStr : HostShape → List Char
  | .watch => litWatch
  | .embed => litEmbed
  | .shorts => litShorts
  | .shortlink => litYoutuBe

/-- A recognized URL shape containing the token `t`. -/
def urlShape (p : ProtoShape) (w : Bool) (h : HostShape) (t : List Char) : List Char :=
  protoStr p ++ ((if w then litWww else []) ++ (hostStr h ++ t))

/-- `s` contains a run of 11 consecutive identifier-class characters. -/
def has11Run : List Char → Bool
  | [] => false
  | c :: cs => (takeTok 11 (c :: cs)).isSome || has11Run cs

lemma tryLit_iff : ∀ (l s r : List Char), tryLit l s = some r ↔ s = l ++ r := by
  intro l
  induction l with
  | nil => intro s r; simp [tryLit]
  | cons c cs ih =>
    intro s r
    cases s with
    | nil => simp [tryLit]
    | cons a as =>
      by_cases h : a = c
      · subst h
        simp [tryLit, ih]
      · simp [tryLit, h, Ne.symm h]

lemma takeTok_append : ∀ (n : Nat) (t r : List Char), t.length = n → t.all isTok = true →
    takeTok n (t ++ r) = some (t, r) := by
  intro n
  induction n with
  | zero =>
    intro t r hl _
    rw [List.length_eq_zero] at hl
    subst hl
    simp [takeTok]
  | succ m ih =>
    intro t r hl ht
    cases t with
    | nil => simp at hl
    | cons c cs =>
      simp only [List.length_cons, Nat.succ.injEq] at hl
      simp only [List.all_cons, Bool.and_eq_true] at ht
      simp [takeTok, ht.1, ih cs r hl ht.2]

lemma takeTok_self (t : List Char) (hl : t.length = 11) (ht : t.all isTok = true) :
    takeTok 11 t = some (t, []) := by
  have := takeTok_append 11 t [] hl ht
  simpa using this

lemma takeTok_some : ∀ (n : Nat) (s t r : List Char), takeTok n s = some (t, r) →
    t.length = n ∧ t.all isTok = true ∧ s = t ++ r := by
  intro n
  induction n with
  | zero =>
    intro s t r h
    simp only [takeTok, Option.some.injEq, Prod.mk.injEq] at h
    obtain ⟨rfl, rfl⟩ := h
    simp
  | succ m ih =>
    intro s t r h
    cases s with
    | nil => simp [takeTok] at h
    | cons c cs =>
      simp only [takeTok] at h
      by_cases hc : isTok c
      · rw [if_pos hc] at h
        cases hk : takeTok m cs with
        | none => rw [hk] at h; simp at h
        | some p =>
          rw [hk] at h
          simp only [Option.map_some', Option.some.injEq, Prod.mk.injEq] at h
          obtain ⟨rfl, rfl⟩ := h
          obtain ⟨h1, h2, h3⟩ := ih cs p.1 p.2 hk
          exact ⟨by simp [h1], by simp [hc, h2], by simp [h3]⟩
      · rw [if_neg hc] at h
        simp at h

lemma tryLit_tok_none (lit s : List Char) (hs : s.all isTok = true)
    (hlit : lit.all isTok = false) : tryLit lit s = none := by
  cases h : tryLit lit s with
  | none => rfl
  | some r =>
    exfalso
    have hsplit := (tryLit_iff lit s r).mp h
    rw [hsplit, List.all_append] at hs
    simp [hlit] at hs

lemma tok_not_space (c : Char) (h : isTok c = true) : isSpace c = false := by
  cases hsp : isSpace c with
  | false => rfl
  | true =>
    exfalso
    simp only [isSpace, Bool.or_eq_true, decide_eq_true_eq] at hsp
    rcases hsp with ((((rfl | rfl) | rfl) | rfl) | rfl) | rfl <;>
      exact absurd h (by decide)

lemma head?_dropWhile {p : Char → Bool} : ∀ (l : List Char) (c : Char),
    (l.dropWhile p).head? = some c → p c = false := by
  intro l
  induction l with
  | nil => intro c h; simp [List.dropWhile] at h
  | cons a as ih =>
    intro c h
    by_cases hp : p a
    · rw [List.dropWhile_cons_of_pos hp] at h
      exact ih c h
    · rw [List.dropWhile_cons_of_neg hp] at h
      simp only [List.head?_cons, Option.some.injEq] at h
      subst h
      simpa using hp

lemma dropWhile_eq_self_of_head {p : Char → Bool} (l : List Char)
    (h : ∀ c, l.head? = some c → p c = false) : l.dropWhile p = l := by
  cases l with
  | nil => rfl
  | cons a as =>
    have := h a rfl
    simp [List.dropWhile, this]

lemma getLast?_dropWhile {p : Char → Bool} : ∀ l : List Char, l.dropWhile p ≠ [] →
    (l.dropWhile p).getLast? = l.getLast? := by
  intro l
  induction l with
  | nil => intro h; simp [List.dropWhile] at h
  | cons a as ih =>
    intro h
    by_cases hp : p a
    · rw [List.dropWhile_cons_of_pos hp] at h ⊢
      have has : as ≠ [] := by
        intro he
        subst he
        simp [List.dropWhile] at h
      rw [ih h]
      cases as with
      | nil => exact absurd rfl has
      | cons b bs => rw [List.getLast?_cons_cons]
    · rw [List.dropWhile_cons_of_neg hp]

lemma pyStrip_eq_self (l : List Char)
    (h1 : ∀ c, l.head? = some c → isSpace c = false)
    (h2 : ∀ c, l.getLast? = some c → isSpace c = false) : pyStrip l = l := by
  unfold pyStrip
  rw [dropWhile_eq_self_of_head l h1]
  rw [dropWhile_eq_self_of_head l.reverse
    (fun c hc => h2 c (by rwa [List.head?_reverse] at hc))]
  exact List.reverse_reverse l

lemma pyStrip_head (l : List Char) (c : Char) (h : (pyStrip l).head? = some c) :
    isSpace c = false := by
  unfold pyStrip at h
  rw [List.head?_reverse] at h
  have hne : ((l.dropWhile isSpace).reverse.dropWhile isSpace) ≠ [] := by
    intro he
    rw [he] at h
    simp at h
  rw [getLast?_dropWhile _ hne, List.getLast?_reverse] at h
  exact head?_dropWhile _ c h

lemma pyStrip_last (l : List Char) (c : Char) (h : (pyStrip l).getLast? = some c) :
    isSpace c = false := by
  unfold pyStrip at h
  rw [List.getLast?_reverse] at h
  exact head?_dropWhile _ c h

lemma pyStrip_idem (l : List Char) : pyStrip (pyStrip l) = pyStrip l :=
  pyStrip_eq_self _ (pyStrip_head l) (pyStrip_last l)

lemma pyStrip_tok (t : List Char) (ht : t.all isTok = true) : pyStrip t = t := by
  apply pyStrip_eq_self
  · intro c hc
    have hm : c ∈ t := by
      cases t with
      | nil => simp at hc
      | cons a as =>
        simp only [List.head?_cons, Option.some.injEq] at hc
        subst hc
        simp
    exact tok_not_space c (List.all_eq_true.mp ht c hm)
  · intro c hc
    have hm : c ∈ t := by
      obtain ⟨hne, heq⟩ := List.mem_getLast?_eq_getLast (l := t) (x := c)
        (by simpa [Option.mem_def] using hc)
      subst heq
      exact List.getLast_mem hne
    exact tok_not_space c (List.all_eq_true.mp ht c hm)

lemma tryCombos_some {s v : List Char} : ∀ cs, tryCombos s cs = some v →
    ∃ p w h, (p, w, h) ∈ cs ∧ matchCombo s p w h = some v := by
  intro cs
  induction cs with
  | nil => intro h; simp [tryCombos] at h
  | cons c rest ih =>
    intro hsome
    obtain ⟨p, w, h⟩ := c
    simp only [tryCombos] at hsome
    cases hm : matchCombo s p w h with
    | some u =>
      rw [hm] at hsome
      simp only [Option.some.injEq] at hsome
      subst hsome
      exact ⟨p, w, h, by simp, hm⟩
    | none =>
      rw [hm] at hsome
      obtain ⟨p', w', h', hmem, hmc⟩ := ih hsome
      exact ⟨p', w', h', by simp [hmem], hmc⟩

lemma tryCombos_none {s : List Char} : ∀ cs, tryCombos s cs = none →
    ∀ p w h, (p, w, h) ∈ cs → matchCombo s p w h = none := by
  intro cs
  induction cs with
  | nil => intro _ p w h hm; simp at hm
  | cons c rest ih =>
    intro hnone p w h hmem
    obtain ⟨p0, w0, h0⟩ := c
    simp only [tryCombos] at hnone
    cases hm : matchCombo s p0 w0 h0 with
    | some u => rw [hm] at hnone; simp at hnone
    | none =>
      rw [hm] at hnone
      rcases List.mem_cons.mp hmem with heq | hmem'
      · obtain ⟨rfl, rfl, rfl⟩ := Prod.mk.injEq .. ▸ (by
          injection heq with h1 h2
          injection h2 with h2 h3
          exact ⟨h1, h2, h3⟩ : p = p0 ∧ w = w0 ∧ h = h0)
        exact hm
      · exact ih hnone p w h hmem'

lemma matchCombo_some_decomp {s p w h v : List Char}
    (hm : matchCombo s p w h = some v) :
    ∃ pre r, s = pre ++ (v ++ r) ∧ v.length = 11 ∧ v.all isTok = true := by
  unfold matchCombo at hm
  cases h1 : tryLit p s with
  | none => simp [h1] at hm
  | some s1 =>
    simp only [h1, Option.some_bind] at hm
    cases h2 : tryLit w s1 with
    | none => simp [h2] at hm
    | some s2 =>
      simp only [h2, Option.some_bind] at hm
      cases h3 : tryLit h s2 with
      | none => simp [h3] at hm
      | some s3 =>
        simp only [h3, Option.some_bind] at hm
        cases h4 : takeTok 11 s3 with
        | none => simp [h4] at hm
        | some tr =>
          simp only [h4, Option.map_some', Option.some.injEq] at hm
          subst hm
          obtain ⟨hlen, htok, hsplit⟩ := takeTok_some 11 s3 tr.1 tr.2 (by rw [h4])
          refine ⟨p ++ (w ++ h), tr.2, ?_, hlen, htok⟩
          rw [(tryLit_iff p s s1).mp h1, (tryLit_iff w s1 s2).mp h2,
              (tryLit_iff h s2 s3).mp h3, hsplit]
          simp [List.append_assoc]

lemma has11Run_of_takeTok (s : List Char) (h : (takeTok 11 s).isSome = true) :
    has11Run s = true := by
  cases s with
  | nil => simp [takeTok] at h
  | cons c cs => simp [has11Run, h]

lemma has11Run_append (x y : List Char) (h : has11Run y = true) :
    has11Run (x ++ y) = true := by
  induction x with
  | nil => simpa
  | cons c cs ih => simp [has11Run, ih]

lemma ytMatchAt_some_run {s v : List Char} (h : ytMatchAt s = some v) :
    has11Run s = true := by
  obtain ⟨p, w, hh, _, hmc⟩ := tryCombos_some reCombos h
  obtain ⟨pre, r, hsplit, hlen, htok⟩ := matchCombo_some_decomp hmc
  rw [hsplit]
  exact has11Run_append _ _
    (has11Run_of_takeTok _ (by rw [takeTok_append 11 v r hlen htok]; rfl))

lemma takeTok_none_of_matchAt_none (s : List Char) (h : ytMatchAt s = none) :
    takeTok 11 s = none := by
  cases ht : takeTok 11 s with
  | none => rfl
  | some tr =>
    exfalso
    have hmc := tryCombos_none reCombos h [] [] [] (by simp [reCombos])
    simp [matchCombo, tryLit, ht] at hmc

lemma ytSearch_none_iff : ∀ s : List Char, ytSearch s = none ↔ has11Run s = false := by
  intro s
  induction s with
  | nil => simp [ytSearch, has11Run]
  | cons c cs ih =>
    simp only [ytSearch]
    cases hm : ytMatchAt (c :: cs) with
    | some v =>
      have := ytMatchAt_some_run hm
      simp [this]
    | none =>
      have ht : takeTok 11 (c :: cs) = none := takeTok_none_of_matchAt_none _ hm
      simp [has11Run, ht, ih]

lemma ytSearch_eq_of_matchAt {s v : List Char} (h : ytMatchAt s = some v) :
    ytSearch s = some v := by
  cases s with
  | nil =>
    have : ytMatchAt ([] : List Char) = none := by decide
    rw [this] at h
    cases h
  | cons c cs => simp [ytSearch, h]

lemma ytSearch_some_wf : ∀ {s v : List Char}, ytSearch s = some v →
    v.length = 11 ∧ v.all isTok = true := by
  intro s
  induction s with
  | nil => intro v h; simp [ytSearch] at h
  | cons c cs ih =>
    intro v h
    simp only [ytSearch] at h
    cases hm : ytMatchAt (c :: cs) with
    | some u =>
      rw [hm] at h
      simp only [Option.some.injEq] at h
      subst h
      obtain ⟨p, w, hh, _, hmc⟩ := tryCombos_some reCombos hm
      obtain ⟨_, _, _, hlen, htok⟩ := matchCombo_some_decomp hmc
      exact ⟨hlen, htok⟩
    | none =>
      rw [hm] at h
      exact ih h

lemma ytMatchAt_bare (t : List Char) (hlen : t.length = 11) (htok : t.all isTok = true) :
    ytMatchAt t = some t := by
  have h1 : tryLit litHttps t = none := tryLit_tok_none _ _ htok (by decide)
  have h2 : tryLit litHttp t = none := tryLit_tok_none _ _ htok (by decide)
  have h3 : tryLit litWww t = none := tryLit_tok_none _ _ htok (by decide)
  have h4 : tryLit litWatch t = none := tryLit_tok_none _ _ htok (by decide)
  have h5 : tryLit litEmbed t = none := tryLit_tok_none _ _ htok (by decide)
  have h6 : tryLit litShorts t = none := tryLit_tok_none _ _ htok (by decide)
  have h7 : tryLit litYoutuBe t = none := tryLit_tok_none _ _ htok (by decide)
  have hself := takeTok_self t hlen htok
  simp [ytMatchAt, reCombos, tryCombos, matchCombo, h1, h2, h3, h4, h5, h6, h7,
        tryLit, hself]

lemma ytMatchAt_urlShape (p : ProtoShape) (w : Bool) (h : HostShape) (t : List Char)
    (hlen : t.length = 11) (htok : t.all isTok = true) :
    ytMatchAt (urlShape p w h t) = some t := by
  have hself := takeTok_self t hlen htok
  cases p <;> cases w <;> cases h <;>
    simp [urlShape, protoStr, hostStr, litHttps, litHttp, litWww, litWatch,
          litEmbed, litShorts, litYoutuBe, ytMatchAt, reCombos, tryCombos,
          matchCombo, tryLit, hself]

lemma pyStrip_urlShape (p : ProtoShape) (w : Bool) (h : HostShape) (t : List Char)
    (hlen : t.length = 11) (htok : t.all isTok = true) :
    pyStrip (urlShape p w h t) = urlShape p w h t := by
  have htne : t ≠ [] := by intro he; subst he; simp at hlen
  apply pyStrip_eq_self
  · intro c hc
    cases p <;> cases w <;> cases h <;>
      simp [urlShape, protoStr, hostStr, litHttps, litHttp, litWww, litWatch,
            litEmbed, litShorts, litYoutuBe] at hc <;>
      subst hc <;> decide
  · intro c hc
    have hflat : urlShape p w h t
        = (protoStr p ++ ((if w then litWww else []) ++ hostStr h)) ++ t := by
      simp [urlShape, List.append_assoc]
    rw [hflat, List.getLast?_append_of_ne_nil _ htne] at hc
    have hm : c ∈ t := by
      obtain ⟨hne, heq⟩ := List.mem_getLast?_eq_getLast (l := t) (x := c)
        (by simpa [Option.mem_def] using hc)
      subst heq
      exact List.getLast_mem hne
    exact tok_not_space c (List.all_eq_true.mp htok c hm)

lemma extract_vidid_urlShape (p : ProtoShape) (w : Bool) (h : HostShape) (t : List Char)
    (hlen : t.length = 11) (htok : t.all isTok = true) :
    extract_vidid (urlShape p w h t) = some t := by
  unfold extract_vidid
  rw [pyStrip_urlShape p w h t hlen htok,
      ytSearch_eq_of_matchAt (ytMatchAt_urlShape p w h t hlen htok)]

lemma extract_vidid_bare (t : List Char) (hlen : t.length = 11) (htok : t.all isTok = true) :
    extract_vidid t = some t := by
  unfold extract_vidid
  rw [pyStrip_tok t htok, ytSearch_eq_of_matchAt (ytMatchAt_bare t hlen htok)]

lemma fullmatchTok_run (l : List Char) (h : fullmatchTok l = true) : has11Run l = true := by
  simp only [fullmatchTok, Bool.and_eq_true, beq_iff_eq] at h
  exact has11Run_of_takeTok l (by rw [takeTok_self l h.1 h.2]; rfl)

/-- C4 (amended): `extract_vidid` returns the token for every recognized
URL shape containing a well-formed 11-character token and for every bare
well-formed token; but it returns `none` exactly when the trimmed input
contains no run of 11 consecutive identifier-class characters — not for
every input that is neither a matching URL nor a bare token, since the
URL part of `YT_RE` is entirely optional and `search` scans. -/
theorem extract_vidid_amended :
    (∀ (p : ProtoShape) (w : Bool) (h : HostShape) (t : List Char),
        t.length = 11 → t.all isTok = true →
        extract_vidid (urlShape p w h t) = some t) ∧
    (∀ t : List Char, t.length = 11 → t.all isTok = true → extract_vidid t = some t) ∧
    (∀ s : List Char, extract_vidid s = none ↔ has11Run (pyStrip s) = false) := by
  refine ⟨fun p w h t hl ht => extract_vidid_urlShape p w h t hl ht,
          fun t hl ht => extract_vidid_bare t hl ht, ?_⟩
  intro s
  unfold extract_vidid
  cases hs : ytSearch (pyStrip s) with
  | some v =>
    have hrun : has11Run (pyStrip s) = true := by
      cases hr : has11Run (pyStrip s) with
      | false => exact absurd ((ytSearch_none_iff (pyStrip s)).mpr hr) (by simp [hs])
      | true => rfl
    simp [hrun]
  | none =>
    have hrun : has11Run (pyStrip s) = false := (ytSearch_none_iff _).mp hs
    have hfm : fullmatchTok (pyStrip s) = false := by
      cases hf : fullmatchTok (pyStrip s) with
      | false => rfl
      | true => exact absurd (fullmatchTok_run _ hf) (by simp [hrun])
    simp [hfm, hrun]

/-- C4 counterexample: the 12-character input `abcdefghijkl` is neither a
recognized URL (it contains no `.`, `/` or `:`) nor a well-formed
11-character token, yet `extract_vidid` returns the 11-character cut
`abcdefghijk` instead of `none`. -/
theorem extract_vidid_counterexample :
    extract_vidid "abcdefghijkl".data = some "abcdefghijk".data ∧
    "abcdefghijkl".data.length = 12 ∧
    ('.' ∉ "abcdefghijkl".data) ∧ ('/' ∉ "abcdefghijkl".data) ∧
    (':' ∉ "abcdefghijkl".data) := by
  refine ⟨by decide, by decide, by decide, by decide, by decide⟩

/-- Concrete instance of the amended C4. -/
theorem extract_vidid_amended_witness :
    extract_vidid (urlShape ProtoShape.https true HostShape.watch "dQw4w9WgXcQ".data)
        = some "dQw4w9WgXcQ".data ∧
    extract_vidid "dQw4w9WgXcQ".data = some "dQw4w9WgXcQ".data :=
  ⟨extract_vidid_amended.1 ProtoShape.https true HostShape.watch _ (by decide) (by decide),
   extract_vidid_amended.2.1 _ (by decide) (by decide)⟩

lemma extract_vidid_pyStrip (s : List Char) :
    extract_vidid (pyStrip s) = extract_vidid s := by
  unfold extract_vidid
  rw [pyStrip_idem]

lemma canonicalUrl_eq_urlShape (v : List Char) :
    canonicalUrl v = urlShape ProtoShape.https true HostShape.watch v := rfl

lemma extract_vidid_some_wf {s v : List Char} (h : extract_vidid s = some v) :
    v.length = 11 ∧ v.all isTok = true := by
  unfold extract_vidid at h
  cases hs : ytSearch (pyStrip s) with
  | some u =>
    rw [hs] at h
    simp only [Option.some.injEq] at h
    subst h
    exact ytSearch_some_wf hs
  | none =>
    rw [hs] at h
    by_cases hf : fullmatchTok (pyStrip s)
    · rw [if_pos hf] at h
      simp only [Option.some.injEq] at h
      subst h
      simpa [fullmatchTok] using hf
    · rw [if_neg hf] at h
      cases h

lemma normalize_eq_canonical_of_extract (s v : List Char)
    (h : extract_vidid s = some v) : normalize_youtube_input s = canonicalUrl v := by
  unfold extract_vidid at h
  unfold normalize_youtube_input
  cases hs : ytSearch (pyStrip s) with
  | some u =>
    rw [hs] at h
    simp only [Option.some.injEq] at h
    subst h
    simp [hs]
  | none =>
    rw [hs] at h
    by_cases hf : fullmatchTok (pyStrip s)
    · rw [if_pos hf] at h
      simp only [Option.some.injEq] at h
      subst h
      simp [hs, hf]
    · rw [if_neg hf] at h
      cases h

lemma normalize_eq_strip_of_extract_none (s : List Char)
    (h : extract_vidid s = none) : normalize_youtube_input s = pyStrip s := by
  unfold extract_vidid at h
  unfold normalize_youtube_input
  cases hs : ytSearch (pyStrip s) with
  | some u => rw [hs] at h; cases h
  | none =>
    rw [hs] at h
    by_cases hf : fullmatchTok (pyStrip s)
    · rw [if_pos hf] at h; cases h
    · simp [hs, hf]

/-- C10: `normalize_youtube_input` is coherent with `extract_vidid` and
idempotent: when an identifier is extracted the normalizer returns the
canonical watch URL built from it, otherwise it returns the trimmed input
unchanged, and normalizing twice equals normalizing once. -/
theorem normalize_coherent :
    (∀ s v : List Char, extract_vidid s = some v →
        normalize_youtube_input s = canonicalUrl v) ∧
    (∀ s : List Char, extract_vidid s = none → normalize_youtube_input s = pyStrip s) ∧
    (∀ s : List Char, normalize_youtube_input (normalize_youtube_input s)
        = normalize_youtube_input s) := by
  refine ⟨normalize_eq_canonical_of_extract, normalize_eq_strip_of_extract_none, ?_⟩
  intro s
  cases he : extract_vidid s with
  | some v =>
    rw [normalize_eq_canonical_of_extract s v he]
    have hwf := extract_vidid_some_wf he
    exact normalize_eq_canonical_of_extract _ v (by
      rw [canonicalUrl_eq_urlShape]
      exact extract_vidid_urlShape _ _ _ v hwf.1 hwf.2)
  | none =>
    rw [normalize_eq_strip_of_extract_none s he]
    have he2 : extract_vidid (pyStrip s) = none := by
      rw [extract_vidid_pyStrip]
      exact he
    rw [normalize_eq_strip_of_extract_none _ he2, pyStrip_idem]

/-- Concrete instance of C10. -/
theorem normalize_coherent_witness :
    normalize_youtube_input "youtu.be/dQw4w9WgXcQ".data = canonicalUrl "dQw4w9WgXcQ".data ∧
    normalize_youtube_input "???".data = pyStrip "???".data :=
  ⟨normalize_coherent.1 _ _ (by decide), normalize_coherent.2.1 _ (by decide)⟩

/-! ## Admission-and-validation phase of the handlers (src/N.py:1018-1036)

`ytmp4` (and identically `ytmp3`) first awaits `check_api_key`, which
mutates the stored token record, then normalizes the input and extracts
the identifier (`extract_vidid(url) or extract_vidid(yt_url)`); if no
identifier is recognized it returns the 400 response before
`get_cached_file` is ever called.  The final `Nat` counts calls to
`get_cached_file` in the modelled fragment. -/

inductive HandlerOutcome where
  | authError (e : ApiErr)
  | invalidRef (httpStatus : Nat)
  | proceed (vidid : List Char)
  deriving DecidableEq, Repr

/-- Embedding of src/N.py:1025-1036 (admission, normalization and
reference validation, up to the cache lookup). -/
def ytmp4_validate (now : Nat) (today : String) (rec : ApiKeyRec) (url : List Char) :
    HandlerOutcome × ApiKeyRec × Nat :=
  match check_api_key now today rec with
  | (Except.error e, rec') => (HandlerOutcome.authError e, rec', 0)
  | (Except.ok _, rec') =>
    let yt_url := normalize_youtube_input url
    let vidid :=
      match extract_vidid url with
      | some v => some v
      | none => extract_vidid yt_url
    match vidid with
    | none => (HandlerOutcome.invalidRef 400, rec', 0)
    | some v => (HandlerOutcome.proceed v, rec', 1)

/-- C9 counterexample: an admitted request with an unrecognizable
reference is answered with 400 and performs no cache lookup, but the
token's used-today counter is *not* left unchanged — the admission check
that precedes validation already incremented it from 0 to 1. -/
theorem invalid_reference_counterexample :
    (ytmp4_validate 0 "2026-10-12" ⟨0, some "2026-10-12", 5, none⟩ "!!".data).1
        = HandlerOutcome.invalidRef 400 ∧
    (ytmp4_validate 0 "2026-10-12" ⟨0, some "2026-10-12", 5, none⟩ "!!".data).2.2 = 0 ∧
    (ytmp4_validate 0 "2026-10-12" ⟨0, some "2026-10-12", 5, none⟩ "!!".data).2.1.used_today
        = 1 ∧
    (⟨0, some "2026-10-12", 5, none⟩ : ApiKeyRec).used_today = 0 := by
  refine ⟨by decide, by decide, by decide, by decide⟩

/-- C9 (amended): for every admitted request whose reference input is
invalid, the failure is surfaced with HTTP status 400 and no cache lookup
is performed; the durable token record is exactly the record left by the
admission check — in particular the used-today counter retains the
increment that admission applied before validation ran, and the
invalid-reference handling itself changes nothing further. -/
theorem invalid_reference_amended (now : Nat) (today : String) (rec : ApiKeyRec)
    (url : List Char)
    (hadm : (check_api_key now today rec).1 = Except.ok Unit.unit)
    (hext : extract_vidid url = none) :
    (ytmp4_validate now today rec url).1 = HandlerOutcome.invalidRef 400 ∧
    (ytmp4_validate now today rec url).2.1 = (check_api_key now today rec).2 ∧
    (ytmp4_validate now today rec url).2.2 = 0 := by
  have hext2 : extract_vidid (normalize_youtube_input url) = none := by
    rw [normalize_eq_strip_of_extract_none url hext, extract_vidid_pyStrip]
    exact hext
  unfold ytmp4_validate
  rcases hc : check_api_key now today rec with ⟨e, rec'⟩
  rw [hc] at hadm
  simp only at hadm
  subst hadm
  simp [hext, hext2]

/-- Concrete instance of the amended C9. -/
theorem invalid_reference_amended_witness :
    (ytmp4_validate 0 "2026-10-12" ⟨3, some "2026-10-12", 5, none⟩ "!!".data).1
        = HandlerOutcome.invalidRef 400 ∧
    (ytmp4_validate 0 "2026-10-12" ⟨3, some "2026-10-12", 5, none⟩ "!!".data).2.2 = 0 :=
  ⟨(invalid_reference_amended 0 "2026-10-12" ⟨3, some "2026-10-12", 5, none⟩ "!!".data
      rfl (by decide)).1,
   (invalid_reference_amended 0 "2026-10-12" ⟨3, some "2026-10-12", 5, none⟩ "!!".data
      rfl (by decide)).2.2⟩

/-! ## Origin payload decoding (`decrypt_savetube_data`, src/N.py:596-607)

Bytes are modelled as `List Nat` with values below 256.  The AES-128
block permutation under the fixed key `AES_HEX_KEY` is external library
code (pycryptodome); it is abstracted as a function `D` (and its inverse
`E` on the encryption side).  The CBC chaining, the 16-byte IV split,
PKCS#7 unpadding and base64 are modelled from the standard definitions
those library calls implement; the JSON parse is abstracted as `jparse`.
A raised exception at any stage is modelled as `none`. -/

def bxor (a b : List Nat) : List Nat :=
  List.zipWith (fun x y => x ^^^ y) a b

/-- CBC encryption of a block sequence with previous-ciphertext chaining
value `prev` (initially the IV). -/
def cbcEncBlocks (E : List Nat → List Nat) : List Nat → List (List Nat) → List (List Nat)
  | _, [] => []
  | prev, p :: ps =>
    let c := E (bxor p prev)
    c :: cbcEncBlocks E c ps

/-- CBC decryption, as performed by `cipher.decrypt` in MODE_CBC. -/
def cbcDecBlocks (D : List Nat → List Nat) : List Nat → List (List Nat) → List (List Nat)
  | _, [] => []
  | prev, c :: cs => bxor (D c) prev :: cbcDecBlocks D c cs

/-- Split into 16-byte blocks; fails (like `cipher.decrypt`) when the
length is not a multiple of the block size. -/
def chunks16 (l : List Nat) : Option (List (List Nat)) :=
  if l = [] then some []
  else if 16 ≤ l.length then
    (chunks16 (l.drop 16)).map (fun bs => l.take 16 :: bs)
  else none
termination_by l.length
decreasing_by
  simp only [List.length_drop]
  cases l with
  | nil => simp_all
  | cons a as => simp; omega

/-- Total 16-byte chunking (used on the encryption side, where the input
is always padded to a multiple of 16). -/
def toBlocks (l : List Nat) : List (List Nat) :=
  if l = [] then []
  else l.take 16 :: toBlocks (l.drop 16)
termination_by l.length
decreasing_by
  simp only [List.length_drop]
  cases l with
  | nil => simp_all
  | cons a as => simp; omega

/-- PKCS#7 padding (`Crypto.Util.Padding.pad`). -/
def pkcs7Pad (bs : Nat) (l : List Nat) : List Nat :=
  let n := bs - l.length % bs
  l ++ List.replicate n n

/-- PKCS#7 unpadding (`Crypto.Util.Padding.unpad` with `style='pkcs7'`):
fails on empty input, on a length that is not a multiple of the block
size, on a padding byte outside `1 ..= min bs len`, and on trailing bytes
that do not all equal the padding byte. -/
def pkcs7Unpad (bs : Nat) (l : List Nat) : Option (List Nat) :=
  if l.length = 0 then none
  else if l.length % bs ≠ 0 then none
  else
    match l.getLast? with
    | none => none
    | some n =>
      if n < 1 ∨ min bs l.length < n then none
      else if (l.drop (l.length - n)).all (fun x => x = n) then
        some (l.take (l.length - n))
      else none

def b64Alphabet : List Char :=
  ['A', 'B', 'C', 'D', 'E', 'F', 'G', 'H', 'I', 'J', 'K', 'L', 'M',
   'N', 'O', 'P', 'Q', 'R', 'S', 'T', 'U', 'V', 'W', 'X', 'Y', 'Z',
   'a', 'b', 'c', 'd', 'e', 'f', 'g', 'h', 'i', 'j', 'k', 'l', 'm',
   'n', 'o', 'p', 'q', 'r', 's', 't', 'u', 'v', 'w', 'x', 'y', 'z',
   '0', '1', '2', '3', '4', '5', '6', '7', '8', '9', '+', '/']

def b64Char (n : Nat) : Char := b64Alphabet.getD n 'A'

def b64Val (c : Char) : Option Nat := b64Alphabet.findIdx? (fun a => a = c)

/-- Standard base64 encoding (`base64.b64encode`). -/
def base64Encode : List Nat → List Char
  | [] => []
  | [a] => [b64Char (a / 4), b64Char (a % 4 * 16), '=', '=']
  | [a, b] => [b64Char (a / 4), b64Char (a % 4 * 16 + b / 16), b64Char (b % 16 * 4), '=']
  | a :: b :: c :: rest =>
    b64Char (a / 4) :: b64Char (a % 4 * 16 + b / 16) ::
      b64Char (b % 16 * 4 + c / 64) :: b64Char (c % 64) :: base64Encode rest

/-- Standard base64 decoding (`base64.b64decode`): four-character groups,
`=`-padding only in the final group, `none` on other shapes or
non-alphabet characters. -/
def base64Decode : List Char → Option (List Nat)
  | [] => some []
  | p :: q :: r :: s :: rest =>
    (b64Val p).bind fun a => (b64Val q).bind fun b =>
      if r = '=' then
        if s = '=' ∧ rest = [] then some [a * 4 + b / 16] else none
      else
        (b64Val r).bind fun c =>
          if s = '=' then
            if rest = [] then some [a * 4 + b / 16, b % 16 * 16 + c / 4] else none
          else
            (b64Val s).bind fun d => (base64Decode rest).map fun bs =>
              (a * 4 + b / 16) :: (b % 16 * 16 + c / 4) :: (c % 4 * 64 + d) :: bs
  | _ => none

/-- Embedding of `decrypt_savetube_data` (src/N.py:596-607): base64
decode, split off the 16-byte IV (`AES.new` fails when fewer than 16
bytes remain), CBC-decrypt the remainder, strip PKCS#7 padding, parse as
JSON; any stage failure raises, i.e. yields `none`. -/
def decrypt_savetube_data {α : Type} (D : List Nat → List Nat)
    (jparse : List Nat → Option α) (inp : List Char) : Option α :=
  match base64Decode inp with
  | none => none
  | some raw =>
    if raw.length < 16 then none
    else
      match chunks16 (raw.drop 16) with
      | none => none
      | some cbs =>
        match pkcs7Unpad 16 ((cbcDecBlocks D (raw.take 16) cbs).flatten) with
        | none => none
        | some up => jparse up

/-- Modelled from the spec: the fixed encryption scheme whose decoder the
code implements — PKCS#7-pad the serialized document, CBC-encrypt it
under the block cipher with initialization vector `iv`, prepend the IV,
and base64-encode the result. -/
def savetube_encrypt (E : List Nat → List Nat) (iv s : List Nat) : List Char :=
  base64Encode (iv ++ (cbcEncBlocks E iv (toBlocks (pkcs7Pad 16 s))).flatten)

lemma b64Val_b64Char : ∀ n : Nat, n < 64 → b64Val (b64Char n) = some n := by decide

lemma b64Char_ne_pad : ∀ n : Nat, n < 64 → b64Char n ≠ '=' := by decide

lemma base64_roundtrip_fuel : ∀ (k : Nat) (bs : List Nat), bs.length ≤ k →
    (∀ x ∈ bs, x < 256) → base64Decode (base64Encode bs) = some bs := by
  intro k
  induction k with
  | zero =>
    intro bs hl _
    have hbs : bs = [] := List.length_eq_zero.mp (Nat.le_zero.mp hl)
    subst hbs
    rfl
  | succ m ih =>
    intro bs hl hb
    match bs with
    | [] => rfl
    | [a] =>
      have ha : a < 256 := hb a (by simp)
      have h1 := b64Val_b64Char (a / 4) (by omega)
      have h2 := b64Val_b64Char (a % 4 * 16) (by omega)
      simp [base64Encode, base64Decode, h1, h2]
      omega
    | [a, b] =>
      have ha : a < 256 := hb a (by simp)
      have hbb : b < 256 := hb b (by simp)
      have h1 := b64Val_b64Char (a / 4) (by omega)
      have h2 := b64Val_b64Char (a % 4 * 16 + b / 16) (by omega)
      have h3 := b64Val_b64Char (b % 16 * 4) (by omega)
      have h3ne := b64Char_ne_pad (b % 16 * 4) (by omega)
      simp [base64Encode, base64Decode, h1, h2, h3, h3ne]
      omega
    | a :: b :: c :: rest =>
      have ha : a < 256 := hb a (by simp)
      have hbb : b < 256 := hb b (by simp)
      have hc : c < 256 := hb c (by simp)
      have hrest := ih rest (by simp at hl; omega) (fun x hx => hb x (by simp [hx]))
      have h1 := b64Val_b64Char (a / 4) (by omega)
      have h2 := b64Val_b64Char (a % 4 * 16 + b / 16) (by omega)
      have h3 := b64Val_b64Char (b % 16 * 4 + c / 64) (by omega)
      have h4 := b64Val_b64Char (c % 64) (by omega)
      have h3ne := b64Char_ne_pad (b % 16 * 4 + c / 64) (by omega)
      have h4ne := b64Char_ne_pad (c % 64) (by omega)
      simp [base64Encode, base64Decode, h1, h2, h3, h4, h3ne, h4ne, hrest]
      refine ⟨by omega, by omega, by omega⟩

lemma base64_roundtrip (bs : List Nat) (hb : ∀ x ∈ bs, x < 256) :
    base64Decode (base64Encode bs) = some bs :=
  base64_roundtrip_fuel bs.length bs (le_refl _) hb

lemma getLast?_replicate_succ (m x : Nat) :
    (List.replicate (m + 1) x).getLast? = some x := by
  induction m with
  | zero => rfl
  | succ k ih =>
    rw [List.replicate_succ, List.replicate_succ, List.getLast?_cons_cons,
        ← List.replicate_succ]
    exact ih

lemma pkcs7_roundtrip (s : List Nat) : pkcs7Unpad 16 (pkcs7Pad 16 s) = some s := by
  have hmod : s.length % 16 < 16 := Nat.mod_lt _ (by norm_num)
  have hlen : (pkcs7Pad 16 s).length = s.length + (16 - s.length % 16) := by
    simp [pkcs7Pad]
  have hlast : (pkcs7Pad 16 s).getLast? = some (16 - s.length % 16) := by
    unfold pkcs7Pad
    rw [List.getLast?_append_of_ne_nil _ (by simp; omega)]
    obtain ⟨m, hm⟩ : ∃ m, 16 - s.length % 16 = m + 1 := ⟨16 - s.length % 16 - 1, by omega⟩
    rw [hm]
    exact getLast?_replicate_succ m _
  have c1 : ((pkcs7Pad 16 s).length = 0) = False := by
    rw [hlen]; exact eq_false (by omega)
  have c2 : ((pkcs7Pad 16 s).length % 16 ≠ 0) = False := by
    rw [hlen]; exact eq_false (by omega)
  have c3 : (16 - s.length % 16 < 1 ∨
      min 16 (pkcs7Pad 16 s).length < 16 - s.length % 16) = False := by
    rw [hlen]; exact eq_false (by omega)
  have c4 : (pkcs7Pad 16 s).length - (16 - s.length % 16) = s.length := by
    rw [hlen]; omega
  have hdrop : (pkcs7Pad 16 s).drop s.length
      = List.replicate (16 - s.length % 16) (16 - s.length % 16) := by
    unfold pkcs7Pad
    exact List.drop_left s _
  have htake : (pkcs7Pad 16 s).take s.length = s := by
    unfold pkcs7Pad
    exact List.take_left s _
  rw [pkcs7Unpad]
  simp [c1, c2, c3, c4, hlast, hdrop, htake, List.mem_replicate]
  rw [hlen]
  omega

lemma toBlocks_flatten_fuel : ∀ (k : Nat) (l : List Nat), l.length ≤ k →
    (toBlocks l).flatten = l := by
  intro k
  induction k with
  | zero =>
    intro l hl
    have : l = [] := List.length_eq_zero.mp (Nat.le_zero.mp hl)
    subst this
    simp [toBlocks]
  | succ m ih =>
    intro l hl
    by_cases hle : l = []
    · subst hle
      simp [toBlocks]
    · have hpos : 0 < l.length := List.length_pos.mpr hle
      rw [toBlocks, if_neg hle, List.flatten_cons,
          ih _ (by simp only [List.length_drop]; omega), List.take_append_drop]

lemma toBlocks_flatten (l : List Nat) : (toBlocks l).flatten = l :=
  toBlocks_flatten_fuel l.length l (le_refl _)

lemma toBlocks_length16_fuel : ∀ (k : Nat) (l : List Nat), l.length ≤ k →
    l.length % 16 = 0 → ∀ b ∈ toBlocks l, b.length = 16 := by
  intro k
  induction k with
  | zero =>
    intro l hl _ b hmem
    have : l = [] := List.length_eq_zero.mp (Nat.le_zero.mp hl)
    subst this
    simp [toBlocks] at hmem
  | succ m ih =>
    intro l hl hmod b hmem
    by_cases hle : l = []
    · subst hle
      simp [toBlocks] at hmem
    · have hpos : 0 < l.length := List.length_pos.mpr hle
      have h16 : 16 ≤ l.length := by omega
      rw [toBlocks, if_neg hle] at hmem
      rcases List.mem_cons.mp hmem with rfl | hmem'
      · simp [List.length_take]
        omega
      · exact ih _ (by simp only [List.length_drop]; omega)
          (by simp only [List.length_drop]; omega) b hmem'

lemma toBlocks_bound_fuel : ∀ (k : Nat) (l : List Nat), l.length ≤ k →
    (∀ x ∈ l, x < 256) → ∀ b ∈ toBlocks l, ∀ x ∈ b, x < 256 := by
  intro k
  induction k with
  | zero =>
    intro l hl _ b hmem
    have : l = [] := List.length_eq_zero.mp (Nat.le_zero.mp hl)
    subst this
    simp [toBlocks] at hmem
  | succ m ih =>
    intro l hl hb b hmem
    by_cases hle : l = []
    · subst hle
      simp [toBlocks] at hmem
    · have hpos : 0 < l.length := List.length_pos.mpr hle
      rw [toBlocks, if_neg hle] at hmem
      rcases List.mem_cons.mp hmem with rfl | hmem'
      · intro x hx
        exact hb x (List.take_subset 16 l hx)
      · exact ih _ (by simp only [List.length_drop]; omega)
          (fun x hx => hb x (List.drop_subset 16 l hx)) b hmem'

lemma chunks16_flatten : ∀ bs : List (List Nat), (∀ b ∈ bs, b.length = 16) →
    chunks16 bs.flatten = some bs := by
  intro bs
  induction bs with
  | nil => intro _; simp [chunks16]
  | cons b rest ih =>
    intro h
    have hb : b.length = 16 := h b (by simp)
    have hbne : b ≠ [] := by
      intro he
      rw [he] at hb
      simp at hb
    rw [List.flatten_cons, chunks16]
    rw [if_neg (by simp [hbne])]
    rw [if_pos (by simp [hb])]
    have htake : (b ++ rest.flatten).take 16 = b := by
      rw [← hb]
      exact List.take_left b _
    have hdrop : (b ++ rest.flatten).drop 16 = rest.flatten := by
      rw [← hb]
      exact List.drop_left b _
    rw [htake, hdrop, ih (fun x hx => h x (by simp [hx]))]
    rfl

lemma bxor_cancel : ∀ (p c : List Nat), p.length = c.length → bxor (bxor p c) c = p := by
  intro p
  induction p with
  | nil => intro c h; cases c <;> simp_all [bxor]
  | cons a as ih =>
    intro c h
    cases c with
    | nil => simp at h
    | cons b bs =>
      simp only [List.length_cons, Nat.succ.injEq] at h
      simp [bxor, List.zipWith] at ih ⊢
      constructor
      · rw [Nat.xor_assoc, Nat.xor_self, Nat.xor_zero]
      · exact ih bs h

lemma bxor_length (a b : List Nat) : (bxor a b).length = min a.length b.length := by
  simp [bxor]

lemma bxor_bound : ∀ (a b : List Nat), (∀ x ∈ a, x < 256) → (∀ x ∈ b, x < 256) →
    ∀ x ∈ bxor a b, x < 256 := by
  intro a
  induction a with
  | nil => intro b _ _ x hx; simp [bxor] at hx
  | cons u us ih =>
    intro b ha hb x hx
    cases b with
    | nil => simp [bxor] at hx
    | cons v vs =>
      simp only [bxor, List.zipWith_cons_cons, List.mem_cons] at hx
      rcases hx with rfl | hx
      · have hu : u < 256 := ha u (by simp)
        have hv : v < 256 := hb v (by simp)
        have hxor : u ^^^ v < 2 ^ 8 :=
          Nat.xor_lt_two_pow (by simpa using hu) (by simpa using hv)
        simpa using hxor
      · exact ih vs (fun y hy => ha y (by simp [hy])) (fun y hy => hb y (by simp [hy])) x hx

lemma cbcEncBlocks_props (E : List Nat → List Nat)
    (hE : ∀ b, b.length = 16 → (∀ x ∈ b, x < 256) →
        (E b).length = 16 ∧ ∀ x ∈ E b, x < 256) :
    ∀ (ps : List (List Nat)) (prev : List Nat), prev.length = 16 →
      (∀ x ∈ prev, x < 256) →
      (∀ p ∈ ps, p.length = 16 ∧ ∀ x ∈ p, x < 256) →
      ∀ c ∈ cbcEncBlocks E prev ps, c.length = 16 ∧ ∀ x ∈ c, x < 256 := by
  intro ps
  induction ps with
  | nil => intro prev _ _ _ c hc; simp [cbcEncBlocks] at hc
  | cons p rest ih =>
    intro prev hprevlen hprevb hps c hc
    have hp := hps p (by simp)
    have hxlen : (bxor p prev).length = 16 := by
      rw [bxor_length, hp.1, hprevlen]
      omega
    have hxb : ∀ x ∈ bxor p prev, x < 256 := bxor_bound p prev hp.2 hprevb
    have hEc := hE (bxor p prev) hxlen hxb
    simp only [cbcEncBlocks, List.mem_cons] at hc
    rcases hc with rfl | hc
    · exact hEc
    · exact ih (E (bxor p prev)) hEc.1 hEc.2 (fun q hq => hps q (by simp [hq])) c hc

lemma cbc_roundtrip (E D : List Nat → List Nat) (hED : ∀ b, D (E b) = b)
    (hE : ∀ b, b.length = 16 → (∀ x ∈ b, x < 256) →
        (E b).length = 16 ∧ ∀ x ∈ E b, x < 256) :
    ∀ (ps : List (List Nat)) (prev : List Nat), prev.length = 16 →
      (∀ x ∈ prev, x < 256) →
      (∀ p ∈ ps, p.length = 16 ∧ ∀ x ∈ p, x < 256) →
      cbcDecBlocks D prev (cbcEncBlocks E prev ps) = ps := by
  intro ps
  induction ps with
  | nil => intro prev _ _ _; simp [cbcEncBlocks, cbcDecBlocks]
  | cons p rest ih =>
    intro prev hlen hb hps
    have hp := hps p (by simp)
    have hxlen : (bxor p prev).length = 16 := by
      rw [bxor_length, hp.1, hlen]
      omega
    have hxb := bxor_bound p prev hp.2 hb
    have hEc := hE _ hxlen hxb
    simp only [cbcEncBlocks, cbcDecBlocks]
    rw [hED, bxor_cancel p prev (by rw [hp.1, hlen]),
        ih (E (bxor p prev)) hEc.1 hEc.2 (fun q hq => hps q (by simp [hq]))]

/-- C6: the decode step of `decrypt_savetube_data` is the inverse of the
fixed encryption scheme — for any block cipher `E` with inverse `D`, any
16-byte IV, and any serialized document `s` that `jparse` parses to
`doc`, encrypting per the scheme and decoding reproduces `doc` exactly;
and decoding succeeds only when every stage (base64, IV split, CBC
block-size check, PKCS#7 unpadding, JSON parse) succeeds, so a failure of
the cipher, the unpadding or the parse makes the decode step fail. -/
theorem decrypt_savetube_roundtrip {α : Type}
    (E D : List Nat → List Nat) (jparse : List Nat → Option α)
    (hED : ∀ b, D (E b) = b)
    (hE : ∀ b, b.length = 16 → (∀ x ∈ b, x < 256) →
        (E b).length = 16 ∧ ∀ x ∈ E b, x < 256)
    (iv s : List Nat) (hiv : iv.length = 16) (hivb : ∀ x ∈ iv, x < 256)
    (hs : ∀ x ∈ s, x < 256) (doc : α) (hdoc : jparse s = some doc) :
    decrypt_savetube_data D jparse (savetube_encrypt E iv s) = some doc ∧
    ∀ inp : List Char, (decrypt_savetube_data D jparse inp).isSome →
      ∃ raw cbs up, base64Decode inp = some raw ∧ 16 ≤ raw.length ∧
        chunks16 (raw.drop 16) = some cbs ∧
        pkcs7Unpad 16 ((cbcDecBlocks D (raw.take 16) cbs).flatten) = some up ∧
        (jparse up).isSome := by
  constructor
  · have hpadmod : (pkcs7Pad 16 s).length % 16 = 0 := by
      simp only [pkcs7Pad, List.length_append, List.length_replicate]
      omega
    have hpadb : ∀ x ∈ pkcs7Pad 16 s, x < 256 := by
      intro x hx
      unfold pkcs7Pad at hx
      rcases List.mem_append.mp hx with hx | hx
      · exact hs x hx
      · rw [List.eq_of_mem_replicate hx]
        omega
    have hblocks : ∀ p ∈ toBlocks (pkcs7Pad 16 s), p.length = 16 ∧ ∀ x ∈ p, x < 256 :=
      fun p hp => ⟨toBlocks_length16_fuel _ _ (le_refl _) hpadmod p hp,
                   toBlocks_bound_fuel _ _ (le_refl _) hpadb p hp⟩
    have hcprops := cbcEncBlocks_props E hE (toBlocks (pkcs7Pad 16 s)) iv hiv hivb hblocks
    have hctb : ∀ x ∈ (cbcEncBlocks E iv (toBlocks (pkcs7Pad 16 s))).flatten, x < 256 := by
      intro x hx
      obtain ⟨b, hb, hxb⟩ := List.mem_flatten.mp hx
      exact (hcprops b hb).2 x hxb
    have hraw : ∀ x ∈ iv ++ (cbcEncBlocks E iv (toBlocks (pkcs7Pad 16 s))).flatten,
        x < 256 := by
      intro x hx
      rcases List.mem_append.mp hx with h | h
      exacts [hivb x h, hctb x h]
    unfold savetube_encrypt decrypt_savetube_data
    rw [base64_roundtrip _ hraw]
    dsimp only
    have hlen : ¬ (iv ++ (cbcEncBlocks E iv (toBlocks (pkcs7Pad 16 s))).flatten).length
        < 16 := by
      simp [hiv]
    rw [if_neg hlen]
    have htake : (iv ++ (cbcEncBlocks E iv (toBlocks (pkcs7Pad 16 s))).flatten).take 16
        = iv := by
      rw [← hiv]
      exact List.take_left iv _
    have hdrop : (iv ++ (cbcEncBlocks E iv (toBlocks (pkcs7Pad 16 s))).flatten).drop 16
        = (cbcEncBlocks E iv (toBlocks (pkcs7Pad 16 s))).flatten := by
      rw [← hiv]
      exact List.drop_left iv _
    rw [htake, hdrop,
        chunks16_flatten _ (fun b hb => (hcprops b hb).1)]
    dsimp only
    rw [cbc_roundtrip E D hED hE (toBlocks (pkcs7Pad 16 s)) iv hiv hivb hblocks,
        toBlocks_flatten (pkcs7Pad 16 s), pkcs7_roundtrip]
    exact hdoc
  · intro inp h
    unfold decrypt_savetube_data at h
    cases hb : base64Decode inp with
    | none => rw [hb] at h; simp at h
    | some raw =>
      rw [hb] at h
      dsimp only at h
      by_cases hlen : raw.length < 16
      · rw [if_pos hlen] at h
        simp at h
      · rw [if_neg hlen] at h
        cases hch : chunks16 (raw.drop 16) with
        | none => rw [hch] at h; simp at h
        | some cbs =>
          rw [hch] at h
          dsimp only at h
          cases hup : pkcs7Unpad 16 ((cbcDecBlocks D (raw.take 16) cbs).flatten) with
          | none => rw [hup] at h; simp at h
          | some up =>
            rw [hup] at h
            dsimp only at h
            exact ⟨raw, cbs, up, rfl, by omega, hch, hup, h⟩

/-- Concrete instance of C6 with the identity block cipher, a zero IV and
the two-byte document `\x7b\x7d` (`()` braces of an empty JSON object). -/
theorem decrypt_savetube_roundtrip_witness :
    decrypt_savetube_data (fun b => b) (fun x => some x)
        (savetube_encrypt (fun b => b) (List.replicate 16 0) [123, 125])
      = some [123, 125] :=
  (decrypt_savetube_roundtrip (fun b => b) (fun b => b) (fun x => some x)
      (fun _ => rfl) (fun _ h1 h2 => ⟨h1, h2⟩)
      (List.replicate 16 0) [123, 125] (by simp)
      (fun x hx => by rw [List.eq_of_mem_replicate hx]; omega)
      (by intro x hx; fin_cases hx <;> omega)
      [123, 125] rfl).1

end YtApi
